import Mathlib

/-!
Verification of the "NHK Easy Practice With WaniKani" userscript.

The script hides furigana (phonetic readings) on a news page for words the
user already knows.  We embed its four parts:

* the live-DOM strategy `findRubyInPage` / `getTextWithoutRuby`, which walks
  the document's `ruby` elements and sets `style.visibility = "hidden"` on
  the first `rt` child of each element whose base text is known;
* the embedded-markup strategy `findRubyInDictionary`, a `replaceAll` over a
  definition string with the regex
  `/<ruby><rb>([^<]*)<\/rb><rt>[^<]*<\/rt><\/ruby>/g`, replacing a match by
  its captured base form when that base form is known;
* the paginated WaniKani API accumulation `getAssignments` /
  `lookupSubjectIds` / `lookupVocab` / `addVocabFromSubjects`, a do/while
  loop over `pages.next_url` cursors inserting into JS `Set`s;
* the credential resolution `getApiToken` over `GM.getValue` / `prompt` /
  a validation fetch / `GM.setValue`.

JS `Set`s are modelled as duplicate-free lists with insertion order
(`jsSetAdd`), the DOM as lists of element nodes, the network as explicit
response functions, and the do/while pagination as a fuel-indexed loop.
-/

/-! ## DOM model: ruby elements and their child nodes

A `ruby` element's `childNodes` are text nodes and element nodes; for an
element node we keep its `nodeName` (uppercase, as the DOM reports it), its
`textContent`, and whether its `style.visibility` has been set to
`"hidden"` (`hidden := true`). -/

/-- A DOM child node of a `ruby` element: a text node, or an element node
with a `nodeName`, a `textContent`, and a flag recording whether its
`style.visibility` is `"hidden"`. -/
inductive DomNode where
  | text (content : String)
  | elem (name : String) (content : String) (hidden : Bool)
deriving DecidableEq, Repr

/-- The `textContent` of a child node. -/
def DomNode.nodeText : DomNode → String
  | .text s => s
  | .elem _ s _ => s

/-- The condition `childNode.nodeType === Node.TEXT_NODE || childNode.nodeName != "RT"`
from `getTextWithoutRuby`: a text node always passes; an element node passes
unless its `nodeName` is `"RT"`. -/
def includeInText : DomNode → Bool
  | .text _ => true
  | .elem n _ _ => n ≠ "RT"

/-- Whether a child node is an `rt` element (what `querySelector("rt")`
matches among the children; element `nodeName`s are uppercase). -/
def DomNode.isRT : DomNode → Bool
  | .text _ => false
  | .elem n _ _ => n = "RT"

/-- The effect of `rubyText.style.visibility = "hidden"` on a node. -/
def setHidden : DomNode → DomNode
  | .text s => .text s
  | .elem n s _ => .elem n s true

/-- A `ruby` element, as the list of its child nodes. -/
structure RubyElem where
  children : List DomNode
deriving DecidableEq, Repr

/-- `getTextWithoutRuby`: reduce over `childNodes`, concatenating the
`textContent` of every child that is a text node or a non-`RT` element,
starting from the empty string. -/
def getTextWithoutRuby (rubyElement : RubyElem) : String :=
  rubyElement.children.foldl
    (fun result childNode =>
      result ++ (if includeInText childNode then childNode.nodeText else ""))
    ""

/-- `foundWord.querySelector("rt")` followed by
`rubyText.style.visibility = "hidden"`: locate the first `rt` child and
mark it hidden.  When no `rt` child exists, `querySelector` yields `null`
and the style assignment throws, modelled as `none`. -/
def hideFirstRT : List DomNode → Option (List DomNode)
  | [] => none
  | c :: rest =>
    if c.isRT then some (setHidden c :: rest)
    else (hideFirstRT rest).map (fun cs => c :: cs)

/-- The body of the `forEach` in `findRubyInPage`, for one `ruby` element:
if its text without ruby is a member of `knownVocab`, hide its first `rt`
child (failing when there is none); otherwise leave it untouched. -/
def processRuby (knownVocab : List String) (foundWord : RubyElem) : Option RubyElem :=
  if knownVocab.contains (getTextWithoutRuby foundWord) then
    (hideFirstRT foundWord.children).map (fun cs => ⟨cs⟩)
  else
    some foundWord

/-- `findRubyInPage`: process every `ruby` element of the document (the
list returned by `querySelectorAll("ruby")`, in document order); `none`
when the loop throws on some element. -/
def findRubyInPage (knownVocab : List String) : List RubyElem → Option (List RubyElem)
  | [] => some []
  | r :: rest =>
    match processRuby knownVocab r, findRubyInPage knownVocab rest with
    | some r', some rest' => some (r' :: rest')
    | _, _ => none

/-- The property "this element's reading child was made invisible": the
children decompose as a prefix with no `rt` element, the first `rt` child,
and a suffix, and the output is the same list with exactly that `rt` child
marked hidden. -/
def readingHidden (r r' : RubyElem) : Prop :=
  ∃ pre c post,
    r.children = pre ++ c :: post ∧
    (∀ d ∈ pre, d.isRT = false) ∧
    c.isRT = true ∧
    r'.children = pre ++ setHidden c :: post

/-! ### Lemmas about the live-DOM strategy -/

theorem hideFirstRT_decomp {cs cs' : List DomNode} (h : hideFirstRT cs = some cs') :
    ∃ pre c post,
      cs = pre ++ c :: post ∧ (∀ d ∈ pre, d.isRT = false) ∧ c.isRT = true ∧
      cs' = pre ++ setHidden c :: post := by
  induction cs generalizing cs' with
  | nil => simp [hideFirstRT] at h
  | cons a rest ih =>
    by_cases ha : a.isRT
    · refine ⟨[], a, rest, rfl, by simp, ha, ?_⟩
      simp [hideFirstRT, ha] at h
      simpa using h.symm
    · simp only [hideFirstRT, ha, Bool.false_eq_true, if_false, Option.map_eq_some'] at h
      obtain ⟨cs₀, hcs₀, rfl⟩ := h
      obtain ⟨pre, c, post, hdec, hpre, hc, hout⟩ := ih hcs₀
      exact ⟨a :: pre, c, post, by simp [hdec], by
        intro d hd
        rcases List.mem_cons.1 hd with rfl | hd
        · simpa using ha
        · exact hpre d hd, hc, by simp [hout]⟩

theorem hideFirstRT_of_decomp {pre : List DomNode} {c : DomNode} (post : List DomNode)
    (hpre : ∀ d ∈ pre, d.isRT = false) (hc : c.isRT = true) :
    hideFirstRT (pre ++ c :: post) = some (pre ++ setHidden c :: post) := by
  induction pre with
  | nil => simp [hideFirstRT, hc]
  | cons a rest ih =>
    have ha : a.isRT = false := hpre a (by simp)
    have hrest : ∀ d ∈ rest, d.isRT = false := fun d hd => hpre d (by simp [hd])
    simp [hideFirstRT, ha, ih hrest]

theorem hideFirstRT_none {cs : List DomNode} (h : ∀ d ∈ cs, d.isRT = false) :
    hideFirstRT cs = none := by
  induction cs with
  | nil => rfl
  | cons a rest ih =>
    have ha : a.isRT = false := h a (by simp)
    simp [hideFirstRT, ha, ih fun d hd => h d (by simp [hd])]

@[simp] theorem setHidden_nodeText (c : DomNode) : (setHidden c).nodeText = c.nodeText := by
  cases c <;> rfl

@[simp] theorem setHidden_includeInText (c : DomNode) :
    includeInText (setHidden c) = includeInText c := by
  cases c <;> rfl

@[simp] theorem setHidden_isRT (c : DomNode) : (setHidden c).isRT = c.isRT := by
  cases c <;> rfl

@[simp] theorem setHidden_setHidden (c : DomNode) : setHidden (setHidden c) = setHidden c := by
  cases c <;> rfl

theorem textFold_congr {cs cs' : List DomNode} (init : String)
    (h : cs.map (fun c => (includeInText c, c.nodeText)) =
         cs'.map (fun c => (includeInText c, c.nodeText))) :
    cs.foldl (fun result c => result ++ (if includeInText c then c.nodeText else "")) init =
    cs'.foldl (fun result c => result ++ (if includeInText c then c.nodeText else "")) init := by
  induction cs generalizing cs' init with
  | nil => cases cs' with
    | nil => rfl
    | cons b bs => simp at h
  | cons a as ih =>
    cases cs' with
    | nil => simp at h
    | cons b bs =>
      simp only [List.map_cons, List.cons.injEq, Prod.mk.injEq] at h
      obtain ⟨⟨h1, h2⟩, h3⟩ := h
      simp only [List.foldl_cons, h1, h2]
      exact ih _ h3

theorem getTextWithoutRuby_congr {cs cs' : List DomNode}
    (h : cs.map (fun c => (includeInText c, c.nodeText)) =
         cs'.map (fun c => (includeInText c, c.nodeText))) :
    getTextWithoutRuby ⟨cs⟩ = getTextWithoutRuby ⟨cs'⟩ :=
  textFold_congr "" h

theorem processRuby_readingHidden {v : List String} {r r' : RubyElem}
    (hmem : v.contains (getTextWithoutRuby r) = true)
    (h : processRuby v r = some r') : readingHidden r r' := by
  unfold processRuby at h
  rw [hmem] at h
  simp only [if_true, Option.map_eq_some'] at h
  obtain ⟨cs, hcs, rfl⟩ := h
  obtain ⟨pre, c, post, hdec, hpre, hc, hout⟩ := hideFirstRT_decomp hcs
  exact ⟨pre, c, post, hdec, hpre, hc, hout⟩

theorem processRuby_untouched {v : List String} {r : RubyElem}
    (hmem : v.contains (getTextWithoutRuby r) = false) :
    processRuby v r = some r := by
  unfold processRuby
  rw [hmem]
  simp

theorem processRuby_idem {v : List String} {r r' : RubyElem}
    (h : processRuby v r = some r') : processRuby v r' = some r' := by
  cases hmem : v.contains (getTextWithoutRuby r) with
  | false =>
    have := processRuby_untouched hmem
    rw [this] at h
    cases h
    exact processRuby_untouched hmem
  | true =>
    obtain ⟨pre, c, post, hdec, hpre, hc, hout⟩ := processRuby_readingHidden hmem h
    have htext : getTextWithoutRuby r' = getTextWithoutRuby r := by
      have h1 : getTextWithoutRuby ⟨r'.children⟩ = getTextWithoutRuby ⟨r.children⟩ := by
        apply getTextWithoutRuby_congr
        rw [hdec, hout]
        simp
      simpa using h1
    have hmem' : v.contains (getTextWithoutRuby r') = true := by rw [htext]; exact hmem
    unfold processRuby
    rw [hmem']
    simp only [if_true]
    have hfind : hideFirstRT r'.children = some r'.children := by
      rw [hout]
      have := @hideFirstRT_of_decomp pre (setHidden c) post hpre (by simp [hc])
      rw [this]
      simp
    rw [hfind]
    rfl

/-- **C1.** After a successful run of the live-DOM strategy
`findRubyInPage`, the output document is elementwise related to the input:
every `ruby` element whose base text (child text excluding the `rt`
reading child) is a member of the known-vocabulary set has its first
reading child made invisible and nothing else changed, and every element
whose base text is not a member is left untouched. -/
theorem c1_live_dom_hides_exactly_known (v : List String) (doc doc' : List RubyElem)
    (h : findRubyInPage v doc = some doc') :
    List.Forall₂
      (fun r r' =>
        if v.contains (getTextWithoutRuby r) = true then readingHidden r r' else r' = r)
      doc doc' := by
  induction doc generalizing doc' with
  | nil =>
    cases doc' with
    | nil => exact List.Forall₂.nil
    | cons b bs => simp [findRubyInPage] at h
  | cons r rest ih =>
    unfold findRubyInPage at h
    cases hp : processRuby v r with
    | none => rw [hp] at h; cases h
    | some r₀ =>
      cases hrest : findRubyInPage v rest with
      | none => rw [hp, hrest] at h; cases h
      | some rest₀ =>
        rw [hp, hrest] at h
        cases h
        refine List.Forall₂.cons ?_ (ih _ hrest)
        cases hmem : v.contains (getTextWithoutRuby r) with
        | true => simpa [hmem] using processRuby_readingHidden hmem hp
        | false =>
          have := processRuby_untouched hmem
          rw [this] at hp
          cases hp
          simp [hmem]

/-- Witness for C1 at a concrete document: known set {"日本語"}, a page
with one known word (reading gets hidden) and one unknown word
(untouched). -/
theorem c1_live_dom_hides_exactly_known_witness :
    List.Forall₂
      (fun r r' =>
        if ["日本語"].contains (getTextWithoutRuby r) = true then readingHidden r r' else r' = r)
      [⟨[.text "日本語", .elem "RT" "にほんご" false]⟩,
       ⟨[.text "明日", .elem "RT" "あした" false]⟩]
      [⟨[.text "日本語", .elem "RT" "にほんご" true]⟩,
       ⟨[.text "明日", .elem "RT" "あした" false]⟩] :=
  c1_live_dom_hides_exactly_known ["日本語"] _ _ rfl

/-- **C6.** Idempotence of the live-DOM strategy: if `findRubyInPage`
succeeds on a document, running it again on the result succeeds and
changes nothing. -/
theorem c6_live_dom_idempotent (v : List String) (doc doc' : List RubyElem)
    (h : findRubyInPage v doc = some doc') :
    findRubyInPage v doc' = some doc' := by
  induction doc generalizing doc' with
  | nil =>
    cases doc' with
    | nil => rfl
    | cons b bs => simp [findRubyInPage] at h
  | cons r rest ih =>
    unfold findRubyInPage at h
    cases hp : processRuby v r with
    | none => rw [hp] at h; cases h
    | some r₀ =>
      cases hrest : findRubyInPage v rest with
      | none => rw [hp, hrest] at h; cases h
      | some rest₀ =>
        rw [hp, hrest] at h
        cases h
        unfold findRubyInPage
        rw [processRuby_idem hp, ih _ hrest]

/-- Witness for C6 at a concrete document with a known and an unknown
word. -/
theorem c6_live_dom_idempotent_witness :
    findRubyInPage ["日本語"]
      [⟨[.text "日本語", .elem "RT" "にほんご" true]⟩,
       ⟨[.text "明日", .elem "RT" "あした" false]⟩] =
    some
      [⟨[.text "日本語", .elem "RT" "にほんご" true]⟩,
       ⟨[.text "明日", .elem "RT" "あした" false]⟩] :=
  c6_live_dom_idempotent ["日本語"]
    [⟨[.text "日本語", .elem "RT" "にほんご" false]⟩,
     ⟨[.text "明日", .elem "RT" "あした" false]⟩] _ rfl

/-- **C9.** If the document contains a `ruby` element whose base text is a
member of the known-vocabulary set but which has no `rt` child, the
live-DOM strategy fails on that element (`querySelector("rt")` yields
`null` and the style assignment throws): `findRubyInPage` returns no
document, i.e. it is not total. -/
theorem c9_missing_rt_crashes (v : List String) (pre post : List RubyElem) (r : RubyElem)
    (hmem : v.contains (getTextWithoutRuby r) = true)
    (hnort : ∀ c ∈ r.children, c.isRT = false) :
    findRubyInPage v (pre ++ r :: post) = none := by
  induction pre with
  | nil =>
    have hfail : processRuby v r = none := by
      unfold processRuby
      rw [hmem]
      simp [hideFirstRT_none hnort]
    simp only [List.nil_append]
    unfold findRubyInPage
    rw [hfail]
  | cons a rest ih =>
    simp only [List.cons_append]
    unfold findRubyInPage
    rw [ih]
    cases processRuby v a <;> rfl

/-- Witness for C9: a known word whose `ruby` element has only a text
child and no `rt` child makes the whole pass fail. -/
theorem c9_missing_rt_crashes_witness :
    findRubyInPage ["日本語"] ([] ++ (⟨[.text "日本語"]⟩ : RubyElem) :: []) = none :=
  c9_missing_rt_crashes ["日本語"] [] [] ⟨[.text "日本語"]⟩ rfl (by
    intro c hc
    simp only [List.mem_singleton] at hc
    subst hc
    rfl)

/-! ## Embedded-markup strategy: `findRubyInDictionary`

The source rewrites every definition string with
`replaceAll(/<ruby><rb>([^<]*)<\/rb><rt>[^<]*<\/rt><\/ruby>/g, (rubyElement, word) => knownVocab.has(word) ? word : rubyElement)`.
Since `[^<]*` can never cross a `<`, matching at a position is
deterministic: read the literal `<ruby><rb>`, span non-`<` characters
(the captured base form), read `</rb><rt>`, span non-`<` characters (the
reading), read `</rt></ruby>`.  `replaceAll` takes leftmost
non-overlapping matches and resumes after each match, which the
character-by-character scan below reproduces.  The scan is written with a
fuel argument (one unit per emitted chunk) so that it is structural; the
wrapper passes the string length, which is always enough fuel. -/

/-- The literal `<ruby><rb>` opening the regex. -/
def rubyOpenTag : List Char := "<ruby><rb>".data

/-- The literal `</rb><rt>` between the captured base and the reading. -/
def rbCloseTag : List Char := "</rb><rt>".data

/-- The literal `</rt></ruby>` closing the regex. -/
def rtCloseTag : List Char := "</rt></ruby>".data

/-- The character class `[^<]`, as a named predicate. -/
def notLt (c : Char) : Bool := c ≠ '<'

/-- Consume an exact literal from the front of a character list. -/
def dropLit : List Char → List Char → Option (List Char)
  | [], s => some s
  | _ :: _, [] => none
  | c :: p, d :: s => if c = d then dropLit p s else none

/-- Try the regex at the start of `s`.  On success, return the captured
base form, the full matched text, and the remainder of `s` after the
match. -/
def matchRubyAt (s : List Char) : Option (List Char × List Char × List Char) :=
  (dropLit rubyOpenTag s).bind fun s1 =>
    (dropLit rbCloseTag (s1.dropWhile notLt)).bind fun s2 =>
      (dropLit rtCloseTag (s2.dropWhile notLt)).map fun s3 =>
        (s1.takeWhile notLt,
          rubyOpenTag ++ s1.takeWhile notLt ++ rbCloseTag ++
            s2.takeWhile notLt ++ rtCloseTag,
          s3)

/-- The `replaceAll` scan: at each position, if the regex matches, emit
the captured base form when it is known and the matched text verbatim
otherwise, then resume after the match; if it does not match, emit the
character and move one position right. -/
def findRubyInDictAux (knownVocab : List String) : Nat → List Char → List Char
  | 0, s => s
  | fuel + 1, s =>
    match s with
    | [] => []
    | c :: rest =>
      match matchRubyAt (c :: rest) with
      | some (base, matched, after) =>
        (if knownVocab.contains (String.mk base) then base else matched) ++
          findRubyInDictAux knownVocab fuel after
      | none => c :: findRubyInDictAux knownVocab fuel rest

/-- The per-definition substitution performed by `findRubyInDictionary`
on one `def` string of the dictionary. -/
def findRubyInDictionary (knownVocab : List String) (defText : String) : String :=
  String.mk (findRubyInDictAux knownVocab defText.data.length defText.data)

/-- Whether the scan meets some match whose captured base form is a
member of the known-vocabulary set (i.e. whether `replaceAll` rewrites
anything). -/
def hasKnownBaseAux (knownVocab : List String) : Nat → List Char → Bool
  | 0, _ => false
  | fuel + 1, s =>
    match s with
    | [] => false
    | c :: rest =>
      match matchRubyAt (c :: rest) with
      | some (base, _, after) =>
        knownVocab.contains (String.mk base) || hasKnownBaseAux knownVocab fuel after
      | none => hasKnownBaseAux knownVocab fuel rest

/-- String-level wrapper for `hasKnownBaseAux`. -/
def hasKnownBase (knownVocab : List String) (s : String) : Bool :=
  hasKnownBaseAux knownVocab s.data.length s.data

/-- The inline markup for one annotation pair, as emitted by the host
page: base form and reading wrapped in `ruby`/`rb`/`rt` tags. -/
def rubyMarkup (base reading : String) : String :=
  "<ruby><rb>" ++ base ++ "</rb><rt>" ++ reading ++ "</rt></ruby>"

/-! ### Lemmas about the markup scan -/

theorem dropLit_eq_some {p s t : List Char} (h : dropLit p s = some t) : s = p ++ t := by
  induction p generalizing s with
  | nil => cases h; rfl
  | cons c p ih =>
    cases s with
    | nil => cases h
    | cons d s =>
      by_cases hcd : c = d
      · subst hcd
        simp only [dropLit, if_true] at h
        simpa using ih h
      · simp [dropLit, hcd] at h

theorem dropLit_append (p t : List Char) : dropLit p (p ++ t) = some t := by
  induction p with
  | nil => rfl
  | cons c p ih => simp [dropLit, ih]

theorem takeWhile_no_lt {b : List Char} (u : List Char) (hb : ∀ c ∈ b, c ≠ '<') :
    (b ++ '<' :: u).takeWhile notLt = b ∧
    (b ++ '<' :: u).dropWhile notLt = '<' :: u := by
  induction b with
  | nil =>
    have : notLt '<' = false := by simp [notLt]
    constructor <;> simp [List.takeWhile_cons, List.dropWhile_cons, this]
  | cons c b ih =>
    have hc : c ≠ '<' := hb c (by simp)
    have hcn : notLt c = true := by simp [notLt, hc]
    have hrest := ih fun d hd => hb d (by simp [hd])
    refine ⟨?_, ?_⟩
    · simp [List.cons_append, List.takeWhile_cons, hcn, hrest.1]
    · simp [List.cons_append, List.dropWhile_cons, hcn, hrest.2]

theorem matchRubyAt_decomp {s b m r : List Char} (h : matchRubyAt s = some (b, m, r)) :
    s = m ++ r ∧ r.length < s.length := by
  simp only [matchRubyAt, Option.bind_eq_some, Option.map_eq_some'] at h
  obtain ⟨s1, h1, s2, h2, s3, h3, heq⟩ := h
  simp only [Prod.mk.injEq] at heq
  obtain ⟨hb, hm, hr⟩ := heq
  subst hb hm hr
  have e1 : s = rubyOpenTag ++ s1 := dropLit_eq_some h1
  have e2 : s1.dropWhile notLt = rbCloseTag ++ s2 := dropLit_eq_some h2
  have e3 : s2.dropWhile notLt = rtCloseTag ++ s3 := dropLit_eq_some h3
  have es1 : s1 = s1.takeWhile notLt ++ (rbCloseTag ++ s2) := by
    rw [← e2, List.takeWhile_append_dropWhile]
  have es2 : s2 = s2.takeWhile notLt ++ (rtCloseTag ++ s3) := by
    rw [← e3, List.takeWhile_append_dropWhile]
  constructor
  · rw [e1]
    conv_lhs => rw [es1]
    conv_lhs => rw [es2]
    simp [List.append_assoc]
  · rw [e1]
    conv_rhs => rw [es1]
    conv_rhs => rw [es2]
    simp only [List.length_append, List.length_cons]
    simp [rubyOpenTag, rbCloseTag, rtCloseTag]
    omega

theorem findRubyInDictAux_nil (known : List String) (fuel : Nat) :
    findRubyInDictAux known fuel [] = [] := by
  cases fuel <;> rfl

theorem hasKnownBaseAux_nil (known : List String) (fuel : Nat) :
    hasKnownBaseAux known fuel [] = false := by
  cases fuel <;> rfl

theorem findRubyInDictAux_fuel (known : List String) :
    ∀ (f1 f2 : Nat) (s : List Char), s.length ≤ f1 → s.length ≤ f2 →
      findRubyInDictAux known f1 s = findRubyInDictAux known f2 s := by
  intro f1
  induction f1 with
  | zero =>
    intro f2 s h1 h2
    have hs : s = [] := List.length_eq_zero.mp (Nat.le_zero.mp h1)
    subst hs
    rw [findRubyInDictAux_nil, findRubyInDictAux_nil]
  | succ f ih =>
    intro f2 s h1 h2
    cases s with
    | nil => rw [findRubyInDictAux_nil, findRubyInDictAux_nil]
    | cons c rest =>
      cases f2 with
      | zero => simp at h2
      | succ g =>
        simp only [findRubyInDictAux]
        cases hm : matchRubyAt (c :: rest) with
        | none =>
          simp only [hm]
          have hf : rest.length ≤ f := by simpa using h1
          have hg : rest.length ≤ g := by simpa using h2
          rw [ih g rest hf hg]
        | some bmr =>
          obtain ⟨b, m, r⟩ := bmr
          simp only [hm]
          have hlt := (matchRubyAt_decomp hm).2
          simp only [List.length_cons] at hlt h1 h2
          have hf : r.length ≤ f := by omega
          have hg : r.length ≤ g := by omega
          rw [ih g r hf hg]

theorem hasKnownBaseAux_fuel (known : List String) :
    ∀ (f1 f2 : Nat) (s : List Char), s.length ≤ f1 → s.length ≤ f2 →
      hasKnownBaseAux known f1 s = hasKnownBaseAux known f2 s := by
  intro f1
  induction f1 with
  | zero =>
    intro f2 s h1 h2
    have hs : s = [] := List.length_eq_zero.mp (Nat.le_zero.mp h1)
    subst hs
    rw [hasKnownBaseAux_nil, hasKnownBaseAux_nil]
  | succ f ih =>
    intro f2 s h1 h2
    cases s with
    | nil => rw [hasKnownBaseAux_nil, hasKnownBaseAux_nil]
    | cons c rest =>
      cases f2 with
      | zero => simp at h2
      | succ g =>
        simp only [hasKnownBaseAux]
        cases hm : matchRubyAt (c :: rest) with
        | none =>
          simp only [hm]
          have hf : rest.length ≤ f := by simpa using h1
          have hg : rest.length ≤ g := by simpa using h2
          rw [ih g rest hf hg]
        | some bmr =>
          obtain ⟨b, m, r⟩ := bmr
          simp only [hm]
          have hlt := (matchRubyAt_decomp hm).2
          simp only [List.length_cons] at hlt h1 h2
          have hf : r.length ≤ f := by omega
          have hg : r.length ≤ g := by omega
          rw [ih g r hf hg]

theorem findRubyInDictAux_step {s b m r : List Char} (known : List String) (fuel : Nat)
    (hm : matchRubyAt s = some (b, m, r)) (hfuel : s.length ≤ fuel) :
    findRubyInDictAux known fuel s =
      (if known.contains (String.mk b) then b else m) ++
        findRubyInDictAux known r.length r := by
  obtain ⟨hsmr, hlt⟩ := matchRubyAt_decomp hm
  cases s with
  | nil => simp at hlt
  | cons c rest =>
    cases fuel with
    | zero => simp at hfuel
    | succ f =>
      simp only [findRubyInDictAux, hm]
      congr 1
      apply findRubyInDictAux_fuel
      · simp only [List.length_cons] at hlt hfuel; omega
      · exact le_rfl

theorem findRubyInDictAux_id (known : List String) :
    ∀ (fuel : Nat) (s : List Char), s.length ≤ fuel →
      hasKnownBaseAux known fuel s = false → findRubyInDictAux known fuel s = s := by
  intro fuel
  induction fuel with
  | zero => intro s h1 h2; rfl
  | succ f ih =>
    intro s h1 h2
    cases s with
    | nil => rw [findRubyInDictAux_nil]
    | cons c rest =>
      cases hm : matchRubyAt (c :: rest) with
      | none =>
        simp only [hasKnownBaseAux, hm] at h2
        simp only [findRubyInDictAux, hm]
        rw [ih rest (by simpa using h1) h2]
      | some bmr =>
        obtain ⟨b, m, r⟩ := bmr
        obtain ⟨hsmr, hlt⟩ := matchRubyAt_decomp hm
        simp only [hasKnownBaseAux, hm, Bool.or_eq_false_iff] at h2
        obtain ⟨hc, hrest⟩ := h2
        simp only [findRubyInDictAux, hm, hc, Bool.false_eq_true, if_false]
        simp only [List.length_cons] at hlt h1
        rw [ih r (by omega) hrest]
        exact hsmr.symm

theorem matchRubyAt_markup {base reading : List Char} (t : List Char)
    (hb : ∀ c ∈ base, c ≠ '<') (hr : ∀ c ∈ reading, c ≠ '<') :
    matchRubyAt (rubyOpenTag ++ (base ++ (rbCloseTag ++ (reading ++ (rtCloseTag ++ t))))) =
      some (base, rubyOpenTag ++ base ++ rbCloseTag ++ reading ++ rtCloseTag, t) := by
  have e1 : rbCloseTag ++ (reading ++ (rtCloseTag ++ t)) =
      '<' :: ("/rb><rt>".data ++ (reading ++ (rtCloseTag ++ t))) := rfl
  have e2 : rtCloseTag ++ t = '<' :: ("/rt></ruby>".data ++ t) := rfl
  obtain ⟨htake1, hdrop1⟩ :=
    takeWhile_no_lt ("/rb><rt>".data ++ (reading ++ (rtCloseTag ++ t))) hb
  obtain ⟨htake2, hdrop2⟩ := takeWhile_no_lt ("/rt></ruby>".data ++ t) hr
  have h2 : dropLit rbCloseTag
      ('<' :: ("/rb><rt>".data ++ (reading ++ (rtCloseTag ++ t)))) =
      some (reading ++ (rtCloseTag ++ t)) := dropLit_append rbCloseTag _
  have h3 : dropLit rtCloseTag ('<' :: ("/rt></ruby>".data ++ t)) = some t :=
    dropLit_append rtCloseTag _
  unfold matchRubyAt
  rw [dropLit_append, Option.some_bind, e1, hdrop1, htake1, h2, Option.some_bind]
  conv_lhs =>
    rw [show reading ++ (rtCloseTag ++ t) = reading ++ ('<' :: ("/rt></ruby>".data ++ t)) from by
      rw [← e2]]
  rw [hdrop2, htake2, h3, Option.map_some']

/-- **C2.** The embedded-markup rewrite is a pure function of the
definition text and the known-vocabulary set, and rewrites every
occurrence of the pattern wherever it sits: at a position where the
annotation pair `<ruby><rb>BASE</rb><rt>READING</rt></ruby>` matches,
it is replaced by `BASE` alone exactly when `BASE` is a member of the
known set, and kept verbatim otherwise, the remainder being rewritten
the same way; at a position where the pattern does not match, the
character is emitted unchanged and scanning resumes one position right
(so together with the match step the rewrite is characterized at every
position, in particular for occurrences preceded by ordinary text); a
text in which no occurrence has a known base form is returned
byte-for-byte identical; on the spec's example, known set {"日本語"}
turns `<ruby><rb>日本語</rb><rt>にほんご</rt></ruby>です` into `日本語です`,
and the same pair preceded by ordinary text,
`それは<ruby><rb>日本語</rb><rt>にほんご</rt></ruby>です`, into `それは日本語です`. -/
theorem c2_dictionary_rewrite (known : List String) (base reading rest s : String)
    (ch : Char) (cs : List Char)
    (hb : ∀ c ∈ base.data, c ≠ '<') (hr : ∀ c ∈ reading.data, c ≠ '<')
    (hs : hasKnownBase known s = false) (hnm : matchRubyAt (ch :: cs) = none) :
    (findRubyInDictionary known (rubyMarkup base reading ++ rest) =
      (if known.contains base then base else rubyMarkup base reading) ++
        findRubyInDictionary known rest)
    ∧ findRubyInDictionary known s = s
    ∧ findRubyInDictionary ["日本語"] "<ruby><rb>日本語</rb><rt>にほんご</rt></ruby>です" =
        "日本語です"
    ∧ findRubyInDictionary known (String.mk (ch :: cs)) =
        String.mk (ch :: (findRubyInDictionary known (String.mk cs)).data)
    ∧ findRubyInDictionary ["日本語"]
        "それは<ruby><rb>日本語</rb><rt>にほんご</rt></ruby>です" = "それは日本語です" := by
  refine ⟨?_, ?_, by decide, ?_, by decide⟩
  · have hX : (rubyMarkup base reading ++ rest).data =
        rubyOpenTag ++
          (base.data ++ (rbCloseTag ++ (reading.data ++ (rtCloseTag ++ rest.data)))) := by
      simp [rubyMarkup, rubyOpenTag, rbCloseTag, rtCloseTag, String.data_append,
        List.append_assoc]
    apply String.ext
    show findRubyInDictAux known (rubyMarkup base reading ++ rest).data.length
        (rubyMarkup base reading ++ rest).data = _
    rw [hX, findRubyInDictAux_step known _ (matchRubyAt_markup rest.data hb hr) le_rfl,
      String.data_append]
    congr 1
    · have hmkb : String.mk base.data = base := rfl
      rw [hmkb, apply_ite String.data]
      by_cases hk : base ∈ known
      · simp [hk]
      · simp [hk, rubyMarkup, rubyOpenTag, rbCloseTag, rtCloseTag, String.data_append,
          List.append_assoc]
  · apply String.ext
    exact findRubyInDictAux_id known _ _ le_rfl hs
  · apply String.ext
    show findRubyInDictAux known (cs.length + 1) (ch :: cs) =
      ch :: findRubyInDictAux known cs.length cs
    simp only [findRubyInDictAux, hnm]

/-- Witness for C2: known set {"日本語"}, the spec's annotation pair, the
unknown-only text "あした", and the non-matching position "それは". -/
theorem c2_dictionary_rewrite_witness :
    ((∀ c ∈ "日本語".data, c ≠ '<') ∧ (∀ c ∈ "にほんご".data, c ≠ '<') ∧
      hasKnownBase ["日本語"] "あした" = false ∧
      matchRubyAt ('そ' :: "れは".data) = none) ∧
    ((findRubyInDictionary ["日本語"] (rubyMarkup "日本語" "にほんご" ++ "です") =
        (if List.contains ["日本語"] "日本語" then "日本語"
          else rubyMarkup "日本語" "にほんご") ++ findRubyInDictionary ["日本語"] "です")
      ∧ findRubyInDictionary ["日本語"] "あした" = "あした"
      ∧ findRubyInDictionary ["日本語"] "<ruby><rb>日本語</rb><rt>にほんご</rt></ruby>です" =
          "日本語です"
      ∧ findRubyInDictionary ["日本語"] (String.mk ('そ' :: "れは".data)) =
          String.mk ('そ' :: (findRubyInDictionary ["日本語"] (String.mk "れは".data)).data)
      ∧ findRubyInDictionary ["日本語"]
          "それは<ruby><rb>日本語</rb><rt>にほんご</rt></ruby>です" = "それは日本語です") :=
  ⟨⟨by decide, by decide, by decide, by decide⟩,
    c2_dictionary_rewrite ["日本語"] "日本語" "にほんご" "です" "あした" 'そ' "れは".data
      (by decide) (by decide) (by decide) (by decide)⟩

/-- **C10 counterexample.** The claim "the per-definition substitution is
idempotent for every definition text and known-vocabulary set" is false:
with known set {"X"} and nested markup, the first pass rewrites the inner
annotation pair and thereby splices the surrounding text into a fresh
match, which a second pass rewrites further. -/
theorem c10_counterexample :
    ¬ (findRubyInDictionary ["X"]
        (findRubyInDictionary ["X"]
          "<ruby><rb><ruby><rb>X</rb><rt>r</rt></ruby></rb><rt>y</rt></ruby>") =
      findRubyInDictionary ["X"]
        "<ruby><rb><ruby><rb>X</rb><rt>r</rt></ruby></rb><rt>y</rt></ruby>") := by
  decide

/-- **C10 (amended).** The per-definition substitution of
`findRubyInDictionary` is idempotent on every input whose first rewrite
leaves no annotation pair with a known base form (in particular on any
input without nested markup whose rewrite removes all known matches):
when `hasKnownBase` fails on the first output, applying the substitution
twice yields the same string as applying it once. -/
theorem c10_rewrite_idempotent_no_residual (known : List String) (s : String)
    (h : hasKnownBase known (findRubyInDictionary known s) = false) :
    findRubyInDictionary known (findRubyInDictionary known s) =
      findRubyInDictionary known s := by
  apply String.ext
  exact findRubyInDictAux_id known _ _ le_rfl h

/-- Witness for amended C10 on the spec's example text. -/
theorem c10_rewrite_idempotent_no_residual_witness :
    hasKnownBase ["日本語"]
      (findRubyInDictionary ["日本語"] "<ruby><rb>日本語</rb><rt>にほんご</rt></ruby>です") =
        false ∧
    findRubyInDictionary ["日本語"]
      (findRubyInDictionary ["日本語"] "<ruby><rb>日本語</rb><rt>にほんご</rt></ruby>です") =
      findRubyInDictionary ["日本語"] "<ruby><rb>日本語</rb><rt>にほんご</rt></ruby>です" :=
  ⟨by decide,
    c10_rewrite_idempotent_no_residual ["日本語"]
      "<ruby><rb>日本語</rb><rt>にほんご</rt></ruby>です" (by decide)⟩

/-! ## WaniKani API model: pages, JS sets, pagination

A response page carries a `data` array and `pages.next_url`, which is a
URL string or null.  A JS `Set` is a duplicate-free list in insertion
order; `Set.add` appends iff the element is absent.  The network is an
explicit function from request URL to response page, and the do/while
loop is a fuel-indexed iteration (`paginate`); the fetched pages are
returned so that "one fetch per page" is the length of that list. -/

/-- One decoded API response: the `data` array and `pages.next_url`. -/
structure Page (α : Type) where
  data : List α
  next_url : Option String
deriving DecidableEq, Repr

/-- The fields of one assignment record that the script reads or that
the request filters on: `data.subject_id`, plus the record's SRS stage
and subject type (filtered server-side via the query string). -/
structure AssignmentData where
  subject_id : Nat
  srs_stage : Nat
  subject_type : String
deriving DecidableEq, Repr

/-- The field of one subject record the script reads: `data.slug`. -/
structure SubjectData where
  slug : String
deriving DecidableEq, Repr

/-- JS `Set.prototype.add`: append iff absent (SameValueZero equality,
insertion order preserved). -/
def jsSetAdd {α : Type} [DecidableEq α] (s : List α) (a : α) : List α :=
  if a ∈ s then s else s ++ [a]

/-- `lookupSubjectIds`: add every record's `data.subject_id` from one
assignments response to the subject-id set. -/
def lookupSubjectIds (assignmentsAsJson : Page AssignmentData) (subjectIds : List Nat) :
    List Nat :=
  assignmentsAsJson.data.foldl (fun s v => jsSetAdd s v.subject_id) subjectIds

/-- `addVocabFromSubjects`: add every subject's `data.slug` from one
subjects response to the vocabulary set. -/
def addVocabFromSubjects (subjectsAsJson : Page SubjectData) (vocabSet : List String) :
    List String :=
  subjectsAsJson.data.foldl (fun s subject => jsSetAdd s subject.slug) vocabSet

/-- The do/while pagination skeleton shared by `getAssignments` and
`lookupVocab`: fetch the current URL, stop when `pages.next_url` is null,
else continue from that URL.  Fuel bounds the number of iterations;
`none` means the fuel ran out before a null cursor appeared. -/
def paginate {α : Type} (fetch : String → Page α) : Nat → String → Option (List (Page α))
  | 0, _ => none
  | fuel + 1, url =>
    let p := fetch url
    match p.next_url with
    | none => some [p]
    | some u => (paginate fetch fuel u).map (fun ps => p :: ps)

/-- `apiEndpointPath` as assembled in `getAssignments`: the query string
fixing the SRS-stage floor and the subject-kind allowlist. -/
def assignmentsEndpointPath : String :=
  "assignments" ++ "?" ++ "srs_stages=5,6,7,8,9" ++ "&" ++ "subject_types=kanji,vocabulary"

/-- The full assignments request URL. -/
def assignmentsUrl : String := "https://api.wanikani.com/v2/" ++ assignmentsEndpointPath

/-- The subjects request URL for a set of subject ids:
`"subjects?ids=" + Array.from(subjectIds).join()` (insertion order,
comma separator). -/
def subjectsUrl (subjectIds : List Nat) : String :=
  "https://api.wanikani.com/v2/" ++
    ("subjects?ids=" ++ String.intercalate "," (subjectIds.map toString))

/-- The SRS stages named in the query string `srs_stages=5,6,7,8,9`. -/
def srsStagesParam : List Nat := [5, 6, 7, 8, 9]

/-- The subject kinds named in the query string
`subject_types=kanji,vocabulary`. -/
def subjectTypesParam : List String := ["kanji", "vocabulary"]

/-- The filter the server applies to assignment records in response to
the query string: SRS stage among `srsStagesParam` and subject type
among `subjectTypesParam`. -/
def serverFilter (r : AssignmentData) : Bool :=
  srsStagesParam.contains r.srs_stage && subjectTypesParam.contains r.subject_type

/-- `lookupVocab`: paginate the subjects endpoint starting from
`subjectsUrl subjectIds`, adding every page's slugs to `vocabSet`. -/
def lookupVocab (fetch : String → Page SubjectData) (fuel : Nat) (subjectIds : List Nat)
    (vocabSet : List String) : Option (List String) :=
  (paginate fetch fuel (subjectsUrl subjectIds)).map
    (fun pages => pages.foldl (fun acc p => addVocabFromSubjects p acc) vocabSet)

/-- `getAssignments`: paginate the assignments endpoint; for each page,
collect its subject ids into a fresh set (`new Set()`) and run
`lookupVocab` on them, threading the growing vocabulary set. -/
def getAssignments (fetchA : String → Page AssignmentData)
    (fetchS : String → Page SubjectData) (fuel : Nat) (knownVocab : List String) :
    Option (List String) :=
  (paginate fetchA fuel assignmentsUrl).bind
    (fun pages =>
      pages.foldlM (fun acc page => lookupVocab fetchS fuel (lookupSubjectIds page []) acc)
        knownVocab)

/-- The response chain starting at `url` reaches its first null
`next_url` after exactly `k` further hops. -/
def stopsAt {α : Type} (fetch : String → Page α) : String → Nat → Bool
  | url, 0 => (fetch url).next_url.isNone
  | url, k + 1 =>
    match (fetch url).next_url with
    | none => false
    | some u => stopsAt fetch u k

/-! ### Lemmas about JS-set accumulation and pagination -/

theorem jsSetAdd_mem {α : Type} [DecidableEq α] (s : List α) (a x : α) :
    x ∈ jsSetAdd s a ↔ x ∈ s ∨ x = a := by
  unfold jsSetAdd
  by_cases h : a ∈ s
  · simp only [h, if_true]
    constructor
    · exact Or.inl
    · rintro (hx | rfl)
      · exact hx
      · exact h
  · simp [h]

theorem jsSetAdd_nodup {α : Type} [DecidableEq α] {s : List α} (h : s.Nodup) (a : α) :
    (jsSetAdd s a).Nodup := by
  unfold jsSetAdd
  by_cases ha : a ∈ s
  · simpa [ha]
  · simp [List.nodup_append, ha, h]

theorem foldl_jsSetAdd_mem {α β : Type} [DecidableEq β] (f : α → β) (l : List α)
    (init : List β) (x : β) :
    x ∈ l.foldl (fun s v => jsSetAdd s (f v)) init ↔ x ∈ init ∨ x ∈ l.map f := by
  induction l generalizing init with
  | nil => simp
  | cons a as ih =>
    rw [List.foldl_cons, ih, jsSetAdd_mem]
    simp only [List.map_cons, List.mem_cons]
    tauto

theorem foldl_jsSetAdd_nodup {α β : Type} [DecidableEq β] (f : α → β) (l : List α) :
    ∀ init : List β, init.Nodup → (l.foldl (fun s v => jsSetAdd s (f v)) init).Nodup := by
  induction l with
  | nil => intro init h; simpa
  | cons a as ih =>
    intro init h
    rw [List.foldl_cons]
    exact ih _ (jsSetAdd_nodup h (f a))

theorem lookupSubjectIds_mem (p : Page AssignmentData) (ids : List Nat) (x : Nat) :
    x ∈ lookupSubjectIds p ids ↔ x ∈ ids ∨ x ∈ p.data.map AssignmentData.subject_id := by
  unfold lookupSubjectIds
  exact foldl_jsSetAdd_mem _ _ _ _

theorem pagesFold_eq_flat (pages : List (Page SubjectData)) (v : List String) :
    pages.foldl (fun acc p => addVocabFromSubjects p acc) v =
      (pages.flatMap Page.data).foldl (fun s subject => jsSetAdd s subject.slug) v := by
  induction pages generalizing v with
  | nil => simp
  | cons p ps ih =>
    rw [List.foldl_cons, List.flatMap_cons, List.foldl_append, ih]
    rfl

theorem paginate_stopsAt {α : Type} (fetch : String → Page α) :
    ∀ (k : Nat) (url : String) (fuel : Nat), stopsAt fetch url k = true → k < fuel →
      ∃ pages, paginate fetch fuel url = some pages ∧ pages.length = k + 1 := by
  intro k
  induction k with
  | zero =>
    intro url fuel h hf
    cases fuel with
    | zero => omega
    | succ f =>
      simp only [stopsAt, Option.isNone_iff_eq_none] at h
      exact ⟨[fetch url], by simp [paginate, h], rfl⟩
  | succ k ih =>
    intro url fuel h hf
    cases fuel with
    | zero => omega
    | succ f =>
      cases hn : (fetch url).next_url with
      | none =>
        simp only [stopsAt, hn] at h
        cases h
      | some u =>
        simp only [stopsAt, hn] at h
        obtain ⟨ps, hps, hlen⟩ := ih u f h (by omega)
        exact ⟨fetch url :: ps, by simp [paginate, hn, hps], by simp [hlen]⟩

theorem getAssignments_foldlM (fetchS : String → Page SubjectData) (fuel : Nat) :
    ∀ (apages : List (Page AssignmentData)) (acc res : List String),
      apages.foldlM
          (fun acc page => lookupVocab fetchS fuel (lookupSubjectIds page []) acc) acc =
        some res →
      (∀ x, x ∈ res ↔ x ∈ acc ∨ ∃ p ∈ apages, ∃ sp,
          paginate fetchS fuel (subjectsUrl (lookupSubjectIds p [])) = some sp ∧
            x ∈ (sp.flatMap Page.data).map SubjectData.slug) ∧
      (acc.Nodup → res.Nodup) := by
  intro apages
  induction apages with
  | nil =>
    intro acc res h
    simp only [List.foldlM_nil] at h
    cases h
    constructor
    · intro x; simp
    · exact id
  | cons p ps ih =>
    intro acc res h
    rw [List.foldlM_cons] at h
    cases hl : lookupVocab fetchS fuel (lookupSubjectIds p []) acc with
    | none => rw [hl] at h; cases h
    | some a1 =>
      rw [hl] at h
      have h' : ps.foldlM
          (fun acc page => lookupVocab fetchS fuel (lookupSubjectIds page []) acc) a1 =
          some res := h
      unfold lookupVocab at hl
      obtain ⟨sp, hsp, ha1⟩ := Option.map_eq_some'.mp hl
      obtain ⟨hmem, hnd⟩ := ih a1 res h'
      constructor
      · intro x
        rw [hmem x]
        have hx1 : x ∈ a1 ↔ x ∈ acc ∨ x ∈ (sp.flatMap Page.data).map SubjectData.slug := by
          rw [← ha1, pagesFold_eq_flat]
          exact foldl_jsSetAdd_mem _ _ _ _
        rw [hx1]
        constructor
        · rintro ((hacc | hslug) | ⟨p', hp', sp', hsp', hx⟩)
          · exact Or.inl hacc
          · exact Or.inr ⟨p, by simp, sp, hsp, hslug⟩
          · exact Or.inr ⟨p', by simp [hp'], sp', hsp', hx⟩
        · rintro (hacc | ⟨p', hp', sp', hsp', hx⟩)
          · exact Or.inl (Or.inl hacc)
          · rcases List.mem_cons.mp hp' with rfl | hp'
            · rw [hsp] at hsp'
              cases hsp'
              exact Or.inl (Or.inr hx)
            · exact Or.inr ⟨p', hp', sp', hsp', hx⟩
      · intro hacc
        apply hnd
        rw [← ha1, pagesFold_eq_flat]
        exact foldl_jsSetAdd_nodup _ _ _ hacc

theorem serverFilter_iff {r : AssignmentData} (h9 : r.srs_stage ≤ 9) :
    serverFilter r = true ↔
      (5 ≤ r.srs_stage ∧ (r.subject_type = "kanji" ∨ r.subject_type = "vocabulary")) := by
  unfold serverFilter srsStagesParam subjectTypesParam
  rw [Bool.and_eq_true]
  have h1 : ([5, 6, 7, 8, 9] : List Nat).contains r.srs_stage = true ↔
      r.srs_stage ∈ [5, 6, 7, 8, 9] := by simp [List.elem_iff]
  have h2 : (["kanji", "vocabulary"] : List String).contains r.subject_type = true ↔
      r.subject_type ∈ ["kanji", "vocabulary"] := by simp [List.elem_iff]
  have h3 : r.srs_stage ∈ [5, 6, 7, 8, 9] ↔ 5 ≤ r.srs_stage := by
    simp only [List.mem_cons, List.not_mem_nil, or_false]
    omega
  rw [h1, h2, h3]
  simp [List.mem_cons]

/-- **C3.** The pagination accumulation produces exactly the union of all
pages' contributions, with duplicates collapsed, and is independent of
how the same items are split across pages: `lookupSubjectIds` adds
exactly a page's subject ids to the id set, preserving freedom from
duplicates; folding `addVocabFromSubjects` over subjects pages depends
only on the concatenation of their `data` arrays (so any split of the
same records yields the same set); and a successful `getAssignments` run
returns exactly the initial set united with the slugs contributed by
each assignments page's subjects lookup, preserving freedom from
duplicates. -/
theorem c3_pagination_accumulation
    (fetchA : String → Page AssignmentData) (fetchS : String → Page SubjectData)
    (fuel : Nat) (v res vs : List String) (apages : List (Page AssignmentData))
    (spages1 spages2 : List (Page SubjectData))
    (page : Page AssignmentData) (ids : List Nat)
    (hA : paginate fetchA fuel assignmentsUrl = some apages)
    (hres : getAssignments fetchA fetchS fuel v = some res)
    (hsplit : spages1.flatMap Page.data = spages2.flatMap Page.data) :
    (∀ x, x ∈ lookupSubjectIds page ids ↔
        x ∈ ids ∨ x ∈ page.data.map AssignmentData.subject_id)
    ∧ (ids.Nodup → (lookupSubjectIds page ids).Nodup)
    ∧ spages1.foldl (fun acc p => addVocabFromSubjects p acc) vs =
        spages2.foldl (fun acc p => addVocabFromSubjects p acc) vs
    ∧ (v.Nodup → res.Nodup)
    ∧ ∀ x, x ∈ res ↔ x ∈ v ∨ ∃ p ∈ apages, ∃ sp,
        paginate fetchS fuel (subjectsUrl (lookupSubjectIds p [])) = some sp ∧
          x ∈ (sp.flatMap Page.data).map SubjectData.slug := by
  have hfold := getAssignments_foldlM fetchS fuel apages v res (by
    unfold getAssignments at hres
    rw [hA] at hres
    exact hres)
  refine ⟨fun x => lookupSubjectIds_mem page ids x, ?_, ?_, hfold.2, hfold.1⟩
  · intro hnd
    unfold lookupSubjectIds
    exact foldl_jsSetAdd_nodup _ _ _ hnd
  · rw [pagesFold_eq_flat, pagesFold_eq_flat, hsplit]

/-- **C5.** Only assignment records whose SRS stage is at or above the
fifth of the nine stages and whose subject kind is kanji or vocabulary
contribute subject ids: the request URL fixes the filters
`srs_stages=5,6,7,8,9` and `subject_types=kanji,vocabulary`, and when
the server answers with exactly the batch records passing those filters
(split into pages arbitrarily), the ids collected by `lookupSubjectIds`
across the pages are exactly the ids of the batch records meeting the
stage floor and kind allowlist; records below the floor or of other
kinds contribute nothing. -/
theorem c5_stage_and_kind_filter (pages : List (Page AssignmentData))
    (batch : List AssignmentData)
    (hserver : pages.flatMap Page.data = batch.filter serverFilter)
    (hstage : ∀ r ∈ batch, r.srs_stage ≤ 9) :
    (assignmentsEndpointPath =
      "assignments?srs_stages=" ++ String.intercalate "," (srsStagesParam.map toString) ++
        "&subject_types=" ++ String.intercalate "," subjectTypesParam)
    ∧ ∀ x, (∃ p ∈ pages, x ∈ lookupSubjectIds p []) ↔
        x ∈ (batch.filter (fun r => decide (5 ≤ r.srs_stage ∧
              (r.subject_type = "kanji" ∨ r.subject_type = "vocabulary")))).map
            AssignmentData.subject_id := by
  refine ⟨by decide, ?_⟩
  intro x
  have h1 : (∃ p ∈ pages, x ∈ lookupSubjectIds p []) ↔
      x ∈ (pages.flatMap Page.data).map AssignmentData.subject_id := by
    constructor
    · rintro ⟨p, hp, hm⟩
      rw [lookupSubjectIds_mem] at hm
      rcases hm with hm | hm
      · cases hm
      · obtain ⟨r, hr, hrx⟩ := List.mem_map.mp hm
        exact List.mem_map.mpr ⟨r, List.mem_flatMap.mpr ⟨p, hp, hr⟩, hrx⟩
    · intro hm
      obtain ⟨r, hr, hrx⟩ := List.mem_map.mp hm
      obtain ⟨p, hp, hr'⟩ := List.mem_flatMap.mp hr
      refine ⟨p, hp, ?_⟩
      rw [lookupSubjectIds_mem]
      exact Or.inr (List.mem_map.mpr ⟨r, hr', hrx⟩)
  rw [h1, hserver]
  constructor
  · intro hm
    obtain ⟨r, hr, hrx⟩ := List.mem_map.mp hm
    obtain ⟨hrb, hf⟩ := List.mem_filter.mp hr
    refine List.mem_map.mpr ⟨r, List.mem_filter.mpr ⟨hrb, ?_⟩, hrx⟩
    exact decide_eq_true ((serverFilter_iff (hstage r hrb)).mp hf)
  · intro hm
    obtain ⟨r, hr, hrx⟩ := List.mem_map.mp hm
    obtain ⟨hrb, hf⟩ := List.mem_filter.mp hr
    refine List.mem_map.mpr ⟨r, List.mem_filter.mpr ⟨hrb, ?_⟩, hrx⟩
    exact (serverFilter_iff (hstage r hrb)).mpr (of_decide_eq_true hf)

/-- **C7.** For every response chain whose `k`-th page carries a null
`next_url` (all earlier pages carrying a non-null one), the do/while
pagination terminates having fetched exactly the `k + 1` pages up to and
including that page, for both loops: `paginate` (the loop of
`getAssignments` and `lookupVocab`) returns a list of exactly `k + 1`
pages, and `lookupVocab` completes with a result. -/
theorem c7_pagination_terminates {α : Type} (fetch : String → Page α)
    (fetchS : String → Page SubjectData) (url : String) (ids : List Nat)
    (v : List String) (k m fuel : Nat)
    (h : stopsAt fetch url k = true) (hS : stopsAt fetchS (subjectsUrl ids) m = true)
    (hk : k < fuel) (hm : m < fuel) :
    (∃ pages, paginate fetch fuel url = some pages ∧ pages.length = k + 1) ∧
      (lookupVocab fetchS fuel ids v).isSome = true := by
  refine ⟨paginate_stopsAt fetch k url fuel h hk, ?_⟩
  obtain ⟨ps, hps, -⟩ := paginate_stopsAt fetchS m (subjectsUrl ids) fuel hS hm
  unfold lookupVocab
  rw [hps]
  rfl

/-- Witness for C3 with one assignments page (duplicate subject ids
inside), one subjects page per lookup, and two splits of the same
subjects data. -/
theorem c3_pagination_accumulation_witness :
    (∀ x, x ∈ lookupSubjectIds ⟨[⟨1, 5, "kanji"⟩, ⟨1, 5, "kanji"⟩], none⟩ [] ↔
        x ∈ ([] : List Nat) ∨
          x ∈ (Page.mk [⟨1, 5, "kanji"⟩, ⟨1, 5, "kanji"⟩]
            (none : Option String)).data.map AssignmentData.subject_id)
    ∧ (([] : List Nat).Nodup →
        (lookupSubjectIds ⟨[⟨1, 5, "kanji"⟩, ⟨1, 5, "kanji"⟩], none⟩ []).Nodup)
    ∧ ([⟨[⟨"a"⟩], none⟩, ⟨[⟨"b"⟩], none⟩] : List (Page SubjectData)).foldl
          (fun acc p => addVocabFromSubjects p acc) [] =
        ([⟨[⟨"a"⟩, ⟨"b"⟩], some "x"⟩] : List (Page SubjectData)).foldl
          (fun acc p => addVocabFromSubjects p acc) []
    ∧ (([] : List String).Nodup → (["犬"] : List String).Nodup)
    ∧ ∀ x, x ∈ ["犬"] ↔ x ∈ ([] : List String) ∨
        ∃ p ∈ [(⟨[⟨1, 5, "kanji"⟩], none⟩ : Page AssignmentData)], ∃ sp,
          paginate (fun _ => (⟨[⟨"犬"⟩], none⟩ : Page SubjectData)) 1
              (subjectsUrl (lookupSubjectIds p [])) = some sp ∧
            x ∈ (sp.flatMap Page.data).map SubjectData.slug :=
  c3_pagination_accumulation
    (fun _ => ⟨[⟨1, 5, "kanji"⟩], none⟩) (fun _ => ⟨[⟨"犬"⟩], none⟩)
    1 [] ["犬"] [] [⟨[⟨1, 5, "kanji"⟩], none⟩]
    [⟨[⟨"a"⟩], none⟩, ⟨[⟨"b"⟩], none⟩] [⟨[⟨"a"⟩, ⟨"b"⟩], some "x"⟩]
    ⟨[⟨1, 5, "kanji"⟩, ⟨1, 5, "kanji"⟩], none⟩ []
    rfl rfl rfl

/-- Witness for C5 on a mixed batch: a stage-5 kanji and a stage-9
vocabulary pass the filters; a stage-4 kanji and a stage-8 radical do
not. -/
theorem c5_stage_and_kind_filter_witness :
    (assignmentsEndpointPath =
      "assignments?srs_stages=" ++ String.intercalate "," (srsStagesParam.map toString) ++
        "&subject_types=" ++ String.intercalate "," subjectTypesParam)
    ∧ ∀ x, (∃ p ∈ ([⟨[⟨1, 5, "kanji"⟩], none⟩, ⟨[⟨2, 9, "vocabulary"⟩], none⟩] :
          List (Page AssignmentData)), x ∈ lookupSubjectIds p []) ↔
        x ∈ (([⟨1, 5, "kanji"⟩, ⟨3, 4, "kanji"⟩, ⟨2, 9, "vocabulary"⟩, ⟨4, 8, "radical"⟩] :
            List AssignmentData).filter (fun r => decide (5 ≤ r.srs_stage ∧
              (r.subject_type = "kanji" ∨ r.subject_type = "vocabulary")))).map
            AssignmentData.subject_id :=
  c5_stage_and_kind_filter
    [⟨[⟨1, 5, "kanji"⟩], none⟩, ⟨[⟨2, 9, "vocabulary"⟩], none⟩]
    [⟨1, 5, "kanji"⟩, ⟨3, 4, "kanji"⟩, ⟨2, 9, "vocabulary"⟩, ⟨4, 8, "radical"⟩]
    (by decide) (by decide)

/-- Witness for C7: a two-page chain (the second page's cursor is null)
and a one-page subjects chain, with fuel 2. -/
theorem c7_pagination_terminates_witness :
    (∃ pages, paginate
        (fun u => if u = "https://a" then (⟨[], some "https://b"⟩ : Page AssignmentData)
          else ⟨[], none⟩) 2 "https://a" = some pages ∧ pages.length = 1 + 1) ∧
      (lookupVocab (fun _ => (⟨[], none⟩ : Page SubjectData)) 2 [] []).isSome = true :=
  c7_pagination_terminates
    (fun u => if u = "https://a" then (⟨[], some "https://b"⟩ : Page AssignmentData)
      else ⟨[], none⟩)
    (fun _ => ⟨[], none⟩) "https://a" [] [] 1 0 2
    (by decide) (by decide) (by decide) (by decide)

/-! ## Credential resolution: `getApiToken`

`getApiToken` reads `GM.getValue("WK_API_TOKEN")`; a truthy value is
returned unconditionally.  Otherwise the user is prompted, the entered
token is sent to the `voice_actors` endpoint, and on `response.ok` it is
written with `GM.setValue` and returned; on a non-ok response the
function returns `undefined`.  When the fetch rejects, the `.catch`
handler only logs and yields `undefined` for `response`, so the
subsequent `response.ok` access throws a `TypeError`: the run crashes
instead of resolving. -/

/-- The observable outcome of `getApiToken`: a returned token, the
explicit `undefined` return, or the uncaught `TypeError` thrown by
reading `.ok` off an `undefined` response after a network error. -/
inductive CredOutcome where
  | token (t : String)
  | absent
  | error
deriving DecidableEq, Repr

/-- The side effects of one `getApiToken` run: whether `prompt` was
shown, whether the validation fetch was issued, and what
`GM.setValue("WK_API_TOKEN", ...)` wrote, if anything. -/
structure CredEffects where
  prompted : Bool
  validationRequested : Bool
  savedToken : Option String
deriving DecidableEq, Repr

/-- JS truthiness of the stored value: `GM.getValue` yields `undefined`
when the key is unset, and `if (existingToken)` also rejects the empty
string. -/
def truthy : Option String → Bool
  | none => false
  | some t => t ≠ ""

/-- `getApiToken` as a function of its environment: the stored value,
the user's prompt answer, and the validation fetch's behaviour
(`none` = the fetch rejects with a network error, `some ok` = a
response whose `ok` field is `ok`). -/
def getApiToken (storedToken : Option String) (apiTokenFromUser : String)
    (validationResult : Option Bool) : CredOutcome × CredEffects :=
  if truthy storedToken then
    (CredOutcome.token (storedToken.getD ""), ⟨false, false, none⟩)
  else
    match validationResult with
    | none => (CredOutcome.error, ⟨true, true, none⟩)
    | some ok =>
      if ok then
        (CredOutcome.token apiTokenFromUser, ⟨true, true, some apiTokenFromUser⟩)
      else
        (CredOutcome.absent, ⟨true, true, none⟩)

/-- **C4.** With no stored credential: a token the endpoint accepts is
persisted and returned, and a rejected token leaves storage unwritten
with an absent result — but on a network error during validation the
code does not return absent: the `.catch` handler yields an `undefined`
response and `response.ok` throws, so the run crashes (nothing is
persisted).  Evaluated at the failing input. -/
theorem c4_network_error_crashes :
    getApiToken none "abc123" none = (CredOutcome.error, ⟨true, true, none⟩) ∧
      CredOutcome.error ≠ CredOutcome.absent ∧
      getApiToken none "abc123" (some true) =
        (CredOutcome.token "abc123", ⟨true, true, some "abc123"⟩) ∧
      getApiToken none "abc123" (some false) =
        (CredOutcome.absent, ⟨true, true, none⟩) :=
  ⟨rfl, by decide, rfl, rfl⟩

/-- **C8.** When a (truthy) credential is present in storage,
`getApiToken` returns it unconditionally: no prompt, no validation
request, no storage write. -/
theorem c8_stored_token_short_circuit (stored apiTokenFromUser : String)
    (validationResult : Option Bool) (h : stored ≠ "") :
    getApiToken (some stored) apiTokenFromUser validationResult =
      (CredOutcome.token stored, ⟨false, false, none⟩) := by
  unfold getApiToken truthy
  simp [h]

/-- Witness for C8 with a stored token and a rejecting endpoint that is
never consulted. -/
theorem c8_stored_token_short_circuit_witness :
    getApiToken (some "tok") "ignored" (some false) =
      (CredOutcome.token "tok", ⟨false, false, none⟩) :=
  c8_stored_token_short_circuit "tok" "ignored" (some false) (by decide)
